import Mathlib

/-!
Verification of the helm core specification against the repository.

The repository excerpt contains the CLI slice `pkg/cmd/show.go`; the core
subsystems (value compositor, dependency resolver, render engine, hook
scheduler, release state machine) are described by the specification but their
code is not part of the excerpt, so they are modelled from the spec's words.
Definitions embedded from `pkg/cmd/show.go` keep the source's names.
-/

namespace Helm

/-! ## Value trees (spec §3 Data Model, §4.2 Value Compositor) -/

/-- Modelled from the spec: a value tree is an ordered mapping of string keys
to scalars, lists, or nested value trees (spec §3, "Value Tree"). Scalars are
strings, integers or booleans; `table` holds the ordered key/value entries of
a nested tree. -/
inductive Value where
  | str : String → Value
  | num : Int → Value
  | boolean : Bool → Value
  | list : List Value → Value
  | table : List (String × Value) → Value

/-- First value bound to key `k` in an ordered table. -/
def lookupKey : List (String × Value) → String → Option Value
  | [], _ => none
  | (k', v) :: rest, k => if k' = k then some v else lookupKey rest k

/-- Remove the first entry bound to key `k` from an ordered table. -/
def removeKey : List (String × Value) → String → List (String × Value)
  | [], _ => []
  | (k', v) :: rest, k => if k' = k then rest else (k', v) :: removeKey rest k

mutual
/-- Modelled from the spec: deep merge of two value trees, the second
(higher-precedence) tree winning conflicts. Nested trees merge recursively;
scalar and list values in the higher-precedence tree replace the
lower-precedence value wholesale (spec §3 invariant, §4.2). -/
def mergeValues : Value → Value → Value
  | Value.table b, o =>
      match o with
      | Value.table ot => Value.table (mergeTables b ot)
      | _ => o
  | _, o => o
termination_by v _ => sizeOf v

/-- Modelled from the spec: deep union of two ordered tables; keys of the
base tree keep their order, values at shared keys merge recursively, keys
present only in the override are appended — no key is ever dropped. -/
def mergeTables : List (String × Value) → List (String × Value) →
    List (String × Value)
  | [], o => o
  | (k, v) :: rest, o =>
      match lookupKey o k with
      | some w => (k, mergeValues v w) :: mergeTables rest (removeKey o k)
      | none => (k, v) :: mergeTables rest o
termination_by t _ => sizeOf t
end

/-- Modelled from the spec: merging a precedence-ordered list of value
sources (chart defaults bottom, user overrides top); later sources win
conflicts (spec §4.2). -/
def mergeSourceList (sources : List Value) : Value :=
  sources.foldl mergeValues (Value.table [])

/-! ## CLI slice embedded from `pkg/cmd/show.go` -/

/-- Output formats of the show action (`action.ShowAll` etc. in the source). -/
inductive ShowOutputFormat where
  | showAll | showValues | showChart | showReadme | showCRDs
  deriving DecidableEq

/-- The `action.Show` client state manipulated by `show.go`: only the fields
the CLI slice reads or writes are embedded. -/
structure ShowClient where
  OutputFormat : ShowOutputFormat
  Version : String
  Devel : Bool
  JSONPathTemplate : String
  deriving DecidableEq

/-- Embedded from `runShow` (`show.go:214-226`): the client-state update it
performs before locating the chart — when `Version` is empty and `Devel` is
set, `Version` becomes `">0.0.0-0"`; otherwise the client is untouched. -/
def runShow (client : ShowClient) : ShowClient :=
  if client.Version = "" ∧ client.Devel = true then
    { client with Version := ">0.0.0-0" }
  else
    client

/-- One flag registration performed by `addShowFlags`: the `--devel` flag,
the `--jsonpath` flag, or the block of chart-path flags registered through
`addChartPathOptionsFlags` (whose body is outside the excerpt and is kept
as one marker). -/
inductive ShowFlag where
  | devel | jsonpath | chartPathOptions
  deriving DecidableEq

/-- Embedded from `addShowFlags` (`show.go:193-212`): the flags registered on
a show subcommand, keyed by the subcommand's name. `--devel` always,
`--jsonpath` only when the subcommand is named `"values"`, then the
chart-path option flags. -/
def addShowFlags (subCmdName : String) : List ShowFlag :=
  [ShowFlag.devel]
    ++ (if subCmdName = "values" then [ShowFlag.jsonpath] else [])
    ++ [ShowFlag.chartPathOptions]

/-- Embedded from `newShowCmd` (`show.go:184`): the five show subcommands, in
the order they are registered. -/
def showSubcommandNames : List String :=
  ["all", "readme", "values", "chart", "crds"]

/-! ## Render engine (spec §4.3), modelled from the spec -/

/-- Modelled from the spec: the cluster capability set — the API
group/versions available on the target cluster (§3 Render Context). -/
structure Capabilities where
  apiVersions : List String

/-- Modelled from the spec: release metadata available to templates
(§3 Render Context). -/
structure ReleaseMeta where
  name : String
  targetNamespace : String
  revision : Nat
  isInstall : Bool
  isUpgrade : Bool

/-- Modelled from the spec: a per-template render context — scoped values,
release metadata and the capability set, passed explicitly so rendering
stays a pure function of its inputs (§3, §9). -/
structure RenderContext where
  values : Value
  release : ReleaseMeta
  capabilities : Capabilities

/-- Ambient machine state a template engine could observe but, per the spec,
must not: wall clock and random state (§4.3 determinism). It is threaded
through evaluation so independence from it is a real statement. -/
structure AmbientState where
  wallClock : Nat
  randomState : Nat

/-- Modelled from the spec: the template constructs §4.3 requires — literal
text, references into the scoped value tree, concatenation, capability-gated
conditional content, and the explicitly seeded random helper (the only
sanctioned source of pseudo-randomness). -/
inductive Template where
  | lit : String → Template
  | valueRef : List String → Template
  | seq : Template → Template → Template
  | ifCapability : String → Template → Template → Template
  | seededRandom : Nat → Template

/-- Walk a key path into a value tree. -/
def getPath : Value → List String → Option Value
  | v, [] => some v
  | Value.table t, k :: rest =>
      match lookupKey t k with
      | some v => getPath v rest
      | none => none
  | _, _ :: _ => none

/-- Text form of a referenced value; composite values render structurally. -/
def renderValue : Option Value → String
  | none => ""
  | some (Value.str s) => s
  | some (Value.num n) => toString n
  | some (Value.boolean b) => toString b
  | some (Value.list l) => toString l.length
  | some (Value.table t) => toString t.length

/-- The seeded pseudo-random helper: a pure function of the declared seed,
never of the ambient random state (§4.3). -/
def seededValue (seed : Nat) : Nat :=
  (seed * 1103515245 + 12345) % 2147483648

/-- Modelled from the spec: template evaluation against a render context.
The ambient state is in scope but no construct consults it. -/
def evalTemplate : Template → RenderContext → AmbientState → String
  | Template.lit s, _, _ => s
  | Template.valueRef p, ctx, _ => renderValue (getPath ctx.values p)
  | Template.seq a b, ctx, amb => evalTemplate a ctx amb ++ evalTemplate b ctx amb
  | Template.ifCapability api t e, ctx, amb =>
      if ctx.capabilities.apiVersions.contains api then evalTemplate t ctx amb
      else evalTemplate e ctx amb
  | Template.seededRandom seed, _, _ => toString (seededValue seed)

/-- Modelled from the spec: one chart scope of the chart tree — name,
version, default value tree and template files (§3 Chart). -/
structure ChartScope where
  name : String
  version : String
  defaults : Value
  templates : List (String × Template)

/-- Modelled from the spec: one lock entry (name, resolved version, source
digest) (§3 Lock). -/
structure LockEntry where
  name : String
  version : String
  digest : String

/-- Modelled from the spec: a lock is an ordered list of resolved
dependency entries. -/
def Lock : Type := List LockEntry

/-- The slice of a parent value tree addressed by a subchart's name (§4.2). -/
def sliceFor (v : Value) (name : String) : Value :=
  match v with
  | Value.table t => (lookupKey t name).getD (Value.table [])
  | _ => Value.table []

/-- A subchart scope renders only when the lock resolves it (§4.3: root plus
resolved, non-excluded subcharts). -/
def scopeIncluded (lock : List LockEntry) (c : ChartScope) : Bool :=
  lock.any (fun e => e.name == c.name && e.version == c.version)

/-- Render every template of one chart scope: the scope's effective values
are the deep merge of its own defaults with the override tree addressed to
it (§4.2), and each template file evaluates against that scope (§4.3). -/
def renderScope (c : ChartScope) (override : Value) (rel : ReleaseMeta)
    (caps : Capabilities) (amb : AmbientState) : List (String × String) :=
  let effective := mergeValues c.defaults override
  c.templates.map (fun t =>
    (c.name ++ "/" ++ t.1, evalTemplate t.2 ⟨effective, rel, caps⟩ amb))

/-- Modelled from the spec: render the chart tree — the root scope plus the
lock-resolved subchart scopes, each subchart overridden by the slice of the
root's merged tree addressed by its name — producing the mapping from
template path to rendered text (§4.3). -/
def render (root : ChartScope) (subs : List ChartScope) (lock : List LockEntry)
    (userValues : Value) (rel : ReleaseMeta) (caps : Capabilities)
    (amb : AmbientState) : List (String × String) :=
  let rootMerged := mergeValues root.defaults userValues
  renderScope root userValues rel caps amb ++
    ((subs.filter (scopeIncluded lock)).map
      (fun c => renderScope c (sliceFor rootMerged c.name) rel caps amb)).flatten

/-! ## Release state machine and storage backend (spec §3, §4.5, §6),
modelled from the spec -/

/-- Modelled from the spec: the release lifecycle states (§4.5). -/
inductive Status where
  | pendingInstall
  | pendingUpgrade
  | pendingRollback
  | deployed
  | failed
  | superseded
  | uninstalling
  | uninstalled
  deriving DecidableEq

/-- The pending (in-progress) statuses of §4.5. -/
def Status.isPending : Status → Bool
  | Status.pendingInstall => true
  | Status.pendingUpgrade => true
  | Status.pendingRollback => true
  | _ => false

/-- Modelled from the spec: an immutable release revision record (§3); only
its status field ever transitions. -/
structure Revision where
  name : String
  revision : Nat
  chartRef : String
  values : Value
  manifest : String
  status : Status

/-- Modelled from the spec: the storage backend's append-only revision
store (§3, §6). -/
abbrev Store := List Revision

/-- All stored revisions of one release name, in storage order. -/
def revisionsFor (s : Store) (n : String) : List Revision :=
  s.filter (fun r => r.name == n)

/-- The revision numbers recorded for a release name. -/
def revNumbers (s : Store) (n : String) : List Nat :=
  (revisionsFor s n).map (fun r => r.revision)

/-- Highest revision number recorded for a release name (0 when none). -/
def maxRevision (s : Store) (n : String) : Nat :=
  (revNumbers s n).foldr max 0

/-- The number the next revision of a release receives (§4.5: N + 1). -/
def nextRevision (s : Store) (n : String) : Nat :=
  maxRevision s n + 1

/-- Whether some revision of the release is in a pending status. -/
def hasPending (s : Store) (n : String) : Bool :=
  s.any (fun r => r.name == n && r.status.isPending)

/-- The revisions of one release currently in a pending status. -/
def pendingRevs (s : Store) (n : String) : List Revision :=
  s.filter (fun r => r.name == n && r.status.isPending)

/-- How many revisions of one release are currently pending. -/
def pendingCount (s : Store) (n : String) : Nat :=
  (pendingRevs s n).length

/-- First stored revision with the given name and number. -/
def findRev (s : Store) (n : String) (k : Nat) : Option Revision :=
  s.find? (fun r => r.name == n && r.revision == k)

/-- Status of revision `k` of release `n`, when stored. -/
def statusOf (s : Store) (n : String) (k : Nat) : Option Status :=
  (findRev s n k).map (fun r => r.status)

/-- Modelled from the spec: the storage backend's error (§6, §7). -/
inductive StorageError where
  | concurrentModification
  deriving DecidableEq

/-- Modelled from the spec: the backend's conditional create — the write
fails with `ConcurrentModification` when a revision with that name and
number already exists, otherwise appends (§6 `createIfAbsent`). -/
def createIfAbsent (s : Store) (r : Revision) : Except StorageError Store :=
  if s.any (fun q => q.name == r.name && q.revision == r.revision) then
    Except.error StorageError.concurrentModification
  else
    Except.ok (s ++ [r])

/-- Modelled from the spec: the backend's status update — revisions are
never mutated except for the status field (§3, §6 `updateStatus`). -/
def updateStatus (s : Store) (n : String) (k : Nat) (st : Status) : Store :=
  s.map (fun r =>
    if r.name == n && r.revision == k then { r with status := st } else r)

/-- Modelled from the spec: the legal storage transitions of the release
state machine (§4.5) — starting a transition creates the next-numbered
revision in a pending status through the conditional write, after checking
no other revision of that name is pending; a pending revision finalizes to
`deployed` or `failed`; a deployed revision is superseded only when a
later deployed revision exists; uninstall brackets `deployed →
uninstalling → uninstalled`. -/
inductive Step : Store → Store → Prop where
  | create (s : Store) (r : Revision)
      (hpend : hasPending s r.name = false)
      (hst : r.status.isPending = true)
      (hrev : r.revision = nextRevision s r.name)
      (hok : createIfAbsent s r = Except.ok (s ++ [r])) : Step s (s ++ [r])
  | finalize (s : Store) (n : String) (k : Nat) (st terminal : Status)
      (hcur : statusOf s n k = some st) (hp : st.isPending = true)
      (hterm : terminal = Status.deployed ∨ terminal = Status.failed) :
      Step s (updateStatus s n k terminal)
  | supersede (s : Store) (n : String) (k k' : Nat)
      (hcur : statusOf s n k = some Status.deployed)
      (hlt : k < k') (hnew : statusOf s n k' = some Status.deployed) :
      Step s (updateStatus s n k Status.superseded)
  | startUninstall (s : Store) (n : String) (k : Nat)
      (hcur : statusOf s n k = some Status.deployed) :
      Step s (updateStatus s n k Status.uninstalling)
  | finishUninstall (s : Store) (n : String) (k : Nat)
      (hcur : statusOf s n k = some Status.uninstalling) :
      Step s (updateStatus s n k Status.uninstalled)

/-- Stores reachable from the empty store through legal transitions. -/
inductive Reachable : Store → Prop where
  | empty : Reachable []
  | step {s s' : Store} : Reachable s → Step s s' → Reachable s'

/-- Outcome of one orchestrated step (hook run or manifest apply). -/
inductive StepResult where
  | ok
  | failedStep
  deriving DecidableEq

/-- Outcomes of the three steps bracketing an upgrade (§4.5 upgrade). -/
structure UpgradeRun where
  preUpgradeHooks : StepResult
  applyManifests : StepResult
  postUpgradeHooks : StepResult

/-- Modelled from the spec: the sequence of stores an upgrade passes
through (§4.5 upgrade): create revision N+1 in `pending-upgrade`; on any
step failure mark N+1 `failed` and stop; on success mark N+1 `deployed`
and only then mark N `superseded`. -/
def upgradeTrace (s : Store) (n ch : String) (vals : Value) (m : String)
    (run : UpgradeRun) : List Store :=
  let old := maxRevision s n
  let s1 := s ++ [⟨n, old + 1, ch, vals, m, Status.pendingUpgrade⟩]
  if run.preUpgradeHooks = StepResult.ok ∧ run.applyManifests = StepResult.ok ∧
      run.postUpgradeHooks = StepResult.ok then
    let s2 := updateStatus s1 n (old + 1) Status.deployed
    [s, s1, s2, updateStatus s2 n old Status.superseded]
  else
    [s, s1, updateStatus s1 n (old + 1) Status.failed]

/-! ## Hook scheduler (spec §4.4), modelled from the spec -/

/-- Modelled from the spec: the scheduling metadata a rendered hook manifest
carries for one lifecycle event — its name, declared weight and timeout
(§3 Rendered Output, §4.4). -/
structure Hook where
  name : String
  weight : Int
  timeoutSeconds : Nat
  deriving DecidableEq

/-- Modelled from the spec: the hook scheduler's error (§4.4, §7): a timed
out hook fails with `HookTimeout`, surfacing which hook failed. -/
inductive HookError where
  | hookTimeout : String → HookError
  deriving DecidableEq

/-- Outcome the external apply collaborator reports for one hook. -/
inductive HookOutcome where
  | completed
  | timedOut
  deriving DecidableEq

/-- Modelled from the spec: the scheduling order — declared weight
ascending, ties broken by name (§4.4). -/
def hookLE (a b : Hook) : Prop :=
  a.weight < b.weight ∨ (a.weight = b.weight ∧ a.name ≤ b.name)

instance : DecidableRel hookLE := fun a b =>
  inferInstanceAs
    (Decidable (a.weight < b.weight ∨ (a.weight = b.weight ∧ a.name ≤ b.name)))

instance : IsTotal Hook hookLE := ⟨by
  intro a b
  rcases lt_trichotomy a.weight b.weight with h | h | h
  · exact Or.inl (Or.inl h)
  · rcases le_total a.name b.name with hn | hn
    · exact Or.inl (Or.inr ⟨h, hn⟩)
    · exact Or.inr (Or.inr ⟨h.symm, hn⟩)
  · exact Or.inr (Or.inl h)⟩

instance : IsTrans Hook hookLE := ⟨by
  intro a b c hab hbc
  rcases hab with h1 | ⟨h1, hn1⟩ <;> rcases hbc with h2 | ⟨h2, hn2⟩
  · exact Or.inl (by omega)
  · exact Or.inl (by omega)
  · exact Or.inl (by omega)
  · exact Or.inr ⟨by omega, le_trans hn1 hn2⟩⟩

/-- Modelled from the spec: hooks of one event sorted by weight then name. -/
def sortHooks (hs : List Hook) : List Hook :=
  List.insertionSort hookLE hs

/-- Modelled from the spec: sequential invocation of an event's hooks —
each hook is applied in order; a timeout fails the event with `HookTimeout`
and aborts the remaining hooks (§4.4). Returns the names invoked, in
invocation order. -/
def runHooks (applyHook : Hook → HookOutcome) :
    List Hook → Except HookError (List String)
  | [] => Except.ok []
  | h :: rest =>
      match applyHook h with
      | HookOutcome.timedOut => Except.error (HookError.hookTimeout h.name)
      | HookOutcome.completed =>
          match runHooks applyHook rest with
          | Except.ok names => Except.ok (h.name :: names)
          | Except.error e => Except.error e

/-- Modelled from the spec: one lifecycle event's hook execution — sort,
then invoke sequentially (§4.4). -/
def executeHookEvent (applyHook : Hook → HookOutcome) (hs : List Hook) :
    Except HookError (List String) :=
  runHooks applyHook (sortHooks hs)

/-! ## Dependency resolver (spec §4.1), modelled from the spec -/

/-- Modelled from the spec: a resolved dependency version. -/
structure SemVersion where
  major : Nat
  minor : Nat
  patch : Nat
  deriving DecidableEq

/-- `laterVersion a b` holds when `b` is strictly newer than `a`
(major, then minor, then patch). -/
def laterVersion (a b : SemVersion) : Bool :=
  a.major < b.major ||
    (a.major == b.major &&
      (a.minor < b.minor || (a.minor == b.minor && a.patch < b.patch)))

/-- Modelled from the spec: a declared dependency — its name and the
decidable version constraint it declares (§4.1; the standard
precedence-range semantics are abstracted as the constraint's
satisfaction predicate). -/
structure Dependency where
  name : String
  constraintSatisfied : SemVersion → Bool

/-- Modelled from the spec: the resolver's error (§4.1, §7). -/
inductive ResolveError where
  | unsatisfiableConstraint : String → ResolveError
  deriving DecidableEq

/-- Highest version of a list (none when empty). -/
def pickHighest : List SemVersion → Option SemVersion
  | [] => none
  | v :: rest =>
      match pickHighest rest with
      | none => some v
      | some w => some (if laterVersion v w then w else v)

/-- Modelled from the spec: resolve one dependency — filter the available
versions to those satisfying the constraint and select the highest; fail
with `UnsatisfiableConstraint` when none satisfies (§4.1). -/
def resolveDependency (available : List SemVersion) (d : Dependency) :
    Except ResolveError SemVersion :=
  match pickHighest (available.filter d.constraintSatisfied) with
  | some v => Except.ok v
  | none => Except.error (ResolveError.unsatisfiableConstraint d.name)

/-- Modelled from the spec: resolve every declared dependency against the
available-versions collaborator, producing the lock's (name, version)
entries; any failure fails the whole resolution and produces no lock
(§4.1, §5). -/
def resolveAll (availableOf : String → List SemVersion) :
    List Dependency → Except ResolveError (List (String × SemVersion))
  | [] => Except.ok []
  | d :: rest =>
      match resolveDependency (availableOf d.name) d with
      | Except.error e => Except.error e
      | Except.ok v =>
          match resolveAll availableOf rest with
          | Except.error e => Except.error e
          | Except.ok lock => Except.ok ((d.name, v) :: lock)

/-! ## Lemmas about value-tree merging -/

theorem lookupKey_removeKey_ne (o : List (String × Value)) (k k' : String)
    (h : k ≠ k') : lookupKey (removeKey o k') k = lookupKey o k := by
  induction o with
  | nil => rfl
  | cons e rest ih =>
      obtain ⟨k₀, v⟩ := e
      by_cases hk : k₀ = k'
      · subst hk
        simp [removeKey, lookupKey, Ne.symm h]
      · simp [removeKey, lookupKey, hk, ih]

/-- Characterization of a merged table: at every key the merged table holds
the recursive merge when both sides bind the key, and the unique binding
when only one side does. -/
theorem lookupKey_mergeTables :
    ∀ (b o : List (String × Value)) (k : String),
    lookupKey (mergeTables b o) k =
      match lookupKey b k, lookupKey o k with
      | some v, some w => some (mergeValues v w)
      | some v, none => some v
      | none, _ => lookupKey o k
  | [], o, k => by simp [mergeTables, lookupKey]
  | (k₀, v) :: rest, o, k => by
      by_cases hk : k₀ = k
      · subst hk
        cases ho : lookupKey o k₀ with
        | some w => simp [mergeTables, ho, lookupKey]
        | none => simp [mergeTables, ho, lookupKey]
      · cases ho : lookupKey o k₀ with
        | some w =>
            have ih := lookupKey_mergeTables rest (removeKey o k₀) k
            simp [mergeTables, ho, lookupKey, hk, ih,
              lookupKey_removeKey_ne o k k₀ (Ne.symm hk)]
        | none =>
            have ih := lookupKey_mergeTables rest o k
            simp [mergeTables, ho, lookupKey, hk, ih]

theorem mergeValues_table_table (b o : List (String × Value)) :
    mergeValues (Value.table b) (Value.table o) = Value.table (mergeTables b o) := by
  simp [mergeValues]

theorem mergeValues_empty_left (a : Value) :
    mergeValues (Value.table []) a = a := by
  cases a <;> simp [mergeValues, mergeTables]

/-- Claim C1: in a value-tree merge the higher-precedence source replaces
scalar and list values at shared key paths (lists wholesale, never
concatenated), nested trees merge recursively, no key of either side is
dropped, and merging `{replicas: 2}` over `{replicas: 1, image: "x"}` yields
`{replicas: 2, image: "x"}`. -/
theorem merge_precedence_semantics :
    (∀ (b o : List (String × Value)) (k : String) (v w : Value),
        lookupKey b k = some v → lookupKey o k = some w →
        lookupKey (mergeTables b o) k = some (mergeValues v w)) ∧
    (∀ (b o : List (String × Value)) (k : String) (v : Value),
        lookupKey b k = some v → lookupKey o k = none →
        lookupKey (mergeTables b o) k = some v) ∧
    (∀ (b o : List (String × Value)) (k : String),
        lookupKey b k = none →
        lookupKey (mergeTables b o) k = lookupKey o k) ∧
    (∀ (v : Value) (l : List Value), mergeValues v (Value.list l) = Value.list l) ∧
    (∀ (v : Value) (s : String), mergeValues v (Value.str s) = Value.str s) ∧
    (∀ (v : Value) (n : Int), mergeValues v (Value.num n) = Value.num n) ∧
    (∀ (b o : List (String × Value)),
        mergeValues (Value.table b) (Value.table o) = Value.table (mergeTables b o)) ∧
    mergeValues
        (Value.table [("replicas", Value.num 1), ("image", Value.str "x")])
        (Value.table [("replicas", Value.num 2)]) =
      Value.table [("replicas", Value.num 2), ("image", Value.str "x")] := by
  refine ⟨?_, ?_, ?_, ?_, ?_, ?_, mergeValues_table_table, ?_⟩
  · intro b o k v w hb ho
    have h := lookupKey_mergeTables b o k
    rw [hb, ho] at h
    exact h
  · intro b o k v hb ho
    have h := lookupKey_mergeTables b o k
    rw [hb, ho] at h
    exact h
  · intro b o k hb
    have h := lookupKey_mergeTables b o k
    rw [hb] at h
    exact h
  · intro v l; cases v <;> simp [mergeValues]
  · intro v s; cases v <;> simp [mergeValues]
  · intro v n; cases v <;> simp [mergeValues]
  · simp [mergeValues, mergeTables, lookupKey, removeKey]

/-- Witness for C1 at concrete inputs: the user value at `replicas` replaces
the chart default. -/
theorem merge_precedence_semantics_witness :
    lookupKey
        (mergeTables [("replicas", Value.num 1), ("image", Value.str "x")]
          [("replicas", Value.num 2)]) "replicas" = some (Value.num 2) := by
  have h := merge_precedence_semantics.1
    [("replicas", Value.num 1), ("image", Value.str "x")]
    [("replicas", Value.num 2)] "replicas" (Value.num 1) (Value.num 2)
    (by simp [lookupKey]) (by simp [lookupKey])
  simpa [mergeValues] using h

/-- Claim C2: merging the precedence-ordered source list `[A, B, C]` equals
merging `A` with `B` first and the result with `C`. -/
theorem merge_source_list_assoc (A B C : Value) :
    mergeSourceList [A, B, C] = mergeValues (mergeValues A B) C := by
  simp [mergeSourceList, mergeValues_empty_left]

/-! ## Render determinism -/

/-- Template evaluation never consults the ambient wall clock or random
state: the seeded helper depends only on its declared seed. -/
theorem evalTemplate_ambient (t : Template) (ctx : RenderContext)
    (a1 a2 : AmbientState) : evalTemplate t ctx a1 = evalTemplate t ctx a2 := by
  induction t with
  | lit s => rfl
  | valueRef p => rfl
  | seq a b iha ihb => simp [evalTemplate, iha, ihb]
  | ifCapability api tb eb ihT ihE => simp [evalTemplate, ihT, ihE]
  | seededRandom s => rfl

theorem renderScope_ambient (c : ChartScope) (o : Value) (rel : ReleaseMeta)
    (caps : Capabilities) (a1 a2 : AmbientState) :
    renderScope c o rel caps a1 = renderScope c o rel caps a2 := by
  simp only [renderScope]
  exact congrArg (fun f => List.map f c.templates)
    (funext fun t =>
      congrArg _ (evalTemplate_ambient t.2 ⟨mergeValues c.defaults o, rel, caps⟩ a1 a2))

/-- Claim C3: rendering is a deterministic function of chart, lock and
values — its output is byte-identical across invocations and independent of
the ambient wall clock and random state. -/
theorem render_deterministic (root : ChartScope) (subs : List ChartScope)
    (lock : List LockEntry) (userValues : Value) (rel : ReleaseMeta)
    (caps : Capabilities) (a1 a2 : AmbientState) :
    render root subs lock userValues rel caps a1 =
      render root subs lock userValues rel caps a2 := by
  have hf :
      (fun c => renderScope c
        (sliceFor (mergeValues root.defaults userValues) c.name) rel caps a1)
      = (fun c => renderScope c
        (sliceFor (mergeValues root.defaults userValues) c.name) rel caps a2) :=
    funext fun c => renderScope_ambient c _ rel caps a1 a2
  simp only [render, renderScope_ambient root userValues rel caps a1 a2, hf]

/-! ## Store lemmas and revision-number contiguity -/

theorem foldr_max_range' : ∀ (k a : Nat),
    List.foldr max a (List.range' 1 k) = max a k := by
  intro k
  induction k with
  | zero => intro a; simp
  | succ k ih =>
      intro a
      rw [List.range'_concat, List.foldr_append]
      simp only [List.foldr]
      rw [ih]
      omega

theorem revNumbers_append (s : Store) (r : Revision) (n : String) :
    revNumbers (s ++ [r]) n =
      revNumbers s n ++ (if r.name == n then [r.revision] else []) := by
  simp only [revNumbers, revisionsFor, List.filter_append, List.map_append]
  by_cases h : r.name == n <;> simp [h]

theorem revNumbers_updateStatus (s : Store) (n : String) (k : Nat)
    (st : Status) (n' : String) :
    revNumbers (updateStatus s n k st) n' = revNumbers s n' := by
  induction s with
  | nil => rfl
  | cons r rest ih =>
      simp only [updateStatus, List.map] at ih ⊢
      by_cases hc : (r.name == n && r.revision == k) = true <;>
        by_cases hn : (r.name == n') = true <;>
          simp [revNumbers, revisionsFor, hc, hn] at ih ⊢ <;>
            simpa [revNumbers, revisionsFor] using ih

theorem createIfAbsent_ok {s s' : Store} {r : Revision}
    (hok : createIfAbsent s r = Except.ok s') : s' = s ++ [r] := by
  unfold createIfAbsent at hok
  split at hok
  · cases hok
  · cases hok; rfl

theorem maxRevision_of_range {s : Store} {n : String}
    (h : revNumbers s n = List.range' 1 (revNumbers s n).length) :
    maxRevision s n = (revNumbers s n).length := by
  rw [maxRevision]
  conv_lhs => rw [h]
  rw [foldr_max_range']
  omega

theorem contiguity_append (s : Store) (r : Revision) (n : String)
    (ih : revNumbers s n = List.range' 1 (revNumbers s n).length)
    (hrev : r.revision = nextRevision s r.name) :
    revNumbers (s ++ [r]) n =
      List.range' 1 (revNumbers (s ++ [r]) n).length := by
  rw [revNumbers_append]
  by_cases hn : (r.name == n) = true
  · have hname : r.name = n := by simpa using hn
    have hmax := maxRevision_of_range ih
    have hrev' : r.revision = (revNumbers s n).length + 1 := by
      rw [hrev, nextRevision, hname, hmax]
    simp only [hn, if_pos]
    rw [hrev']
    have hlen : (revNumbers s n ++ [(revNumbers s n).length + 1]).length =
        (revNumbers s n).length + 1 := by simp
    rw [hlen]
    conv_lhs => rw [ih]
    rw [List.range'_concat]
    simp [Nat.add_comm]
  · simp only [hn, if_neg]
    simpa using ih

/-- Claim C4: in every reachable store, the revision numbers of a release
name are exactly `1, 2, …, k` in creation order — they start at 1, increase
by exactly 1 per transition, with no gaps and no reuse. -/
theorem revision_numbers_contiguous {s : Store} (h : Reachable s)
    (n : String) :
    revNumbers s n = List.range' 1 (revNumbers s n).length := by
  induction h with
  | empty => simp [revNumbers, revisionsFor]
  | step hr hstep ih =>
      cases hstep with
      | create r hpend hst hrev hok => exact contiguity_append _ r n ih hrev
      | finalize n' k st terminal hcur hp hterm =>
          rw [revNumbers_updateStatus]; exact ih
      | supersede n' k k' hcur hlt hnew =>
          rw [revNumbers_updateStatus]; exact ih
      | startUninstall n' k hcur =>
          rw [revNumbers_updateStatus]; exact ih
      | finishUninstall n' k hcur =>
          rw [revNumbers_updateStatus]; exact ih

/-- Witness for C4 at a concrete reachable store: after one install-create,
release `web` stores exactly revision 1. -/
theorem revision_numbers_contiguous_witness :
    revNumbers
      [⟨"web", 1, "web-1.0.0", Value.table [], "m", Status.pendingInstall⟩]
      "web" = List.range' 1 1 := by
  have hstep : Step []
      [⟨"web", 1, "web-1.0.0", Value.table [], "m", Status.pendingInstall⟩] :=
    Step.create []
      ⟨"web", 1, "web-1.0.0", Value.table [], "m", Status.pendingInstall⟩
      rfl rfl rfl rfl
  have hreach := Reachable.step Reachable.empty hstep
  simpa using revision_numbers_contiguous hreach "web"

/-! ## Pending exclusivity and race safety -/

theorem pendingCount_eq_zero {s : Store} {n : String}
    (h : hasPending s n = false) : pendingCount s n = 0 := by
  simp only [hasPending, List.any_eq_false] at h
  simp only [pendingCount, pendingRevs, List.length_eq_zero]
  exact List.filter_eq_nil_iff.mpr h

theorem pendingCount_append (s : Store) (r : Revision) (n : String) :
    pendingCount (s ++ [r]) n =
      pendingCount s n +
        (if (r.name == n && r.status.isPending) = true then 1 else 0) := by
  simp only [pendingCount, pendingRevs, List.filter_append, List.length_append]
  by_cases h : (r.name == n && r.status.isPending) = true <;> simp [h]

theorem length_filter_map_le {α : Type} (f : α → α) (p : α → Bool)
    (h : ∀ a, p (f a) = true → p a = true) :
    ∀ l : List α, ((l.map f).filter p).length ≤ (l.filter p).length := by
  intro l
  induction l with
  | nil => simp
  | cons a rest ih =>
      simp only [List.map_cons, List.filter_cons]
      by_cases hfa : p (f a) = true
      · rw [if_pos hfa, if_pos (h a hfa)]
        simpa using ih
      · rw [if_neg hfa]
        split
        · exact Nat.le_trans ih (by simp)
        · exact ih

theorem pendingCount_updateStatus_le (s : Store) (n : String) (k : Nat)
    (st : Status) (hst : st.isPending = false) (n' : String) :
    pendingCount (updateStatus s n k st) n' ≤ pendingCount s n' := by
  simp only [pendingCount, pendingRevs, updateStatus]
  apply length_filter_map_le
  intro r hr
  by_cases hc : (r.name == n && r.revision == k) = true
  · exfalso
    rw [if_pos hc] at hr
    simp only [Bool.and_eq_true] at hr
    rw [hst] at hr
    exact Bool.false_ne_true hr.2
  · rw [if_neg hc] at hr
    exact hr

theorem pendingCount_append_le_one (s : Store) (r : Revision) (n : String)
    (hpend : hasPending s r.name = false) (ih : pendingCount s n ≤ 1) :
    pendingCount (s ++ [r]) n ≤ 1 := by
  rw [pendingCount_append]
  by_cases hn : (r.name == n) = true
  · have hname : r.name = n := by simpa using hn
    have h0 : pendingCount s n = 0 := pendingCount_eq_zero (hname ▸ hpend)
    rw [h0]
    split <;> omega
  · have hcond : (r.name == n && r.status.isPending) = false := by
      rw [Bool.not_eq_true] at hn
      simp [hn]
    rw [hcond]
    simpa using ih

/-- Claim C5: in every reachable store at most one revision per release
name is pending, and when two transitions race on the same computed
revision the write that serializes first succeeds while the second
conditional write fails with `ConcurrentModification`, leaving the store
exactly as the winner left it. -/
theorem pending_exclusive {s : Store} (h : Reachable s) :
    (∀ n, pendingCount s n ≤ 1) ∧
    (∀ (t t' : Store) (r : Revision), createIfAbsent t r = Except.ok t' →
      t' = t ++ [r] ∧
      createIfAbsent t' r =
        Except.error StorageError.concurrentModification) := by
  constructor
  · induction h with
    | empty => intro n; simp [pendingCount, pendingRevs]
    | step hr hstep ih =>
        intro n
        cases hstep with
        | create r hpend hst hrev hok =>
            exact pendingCount_append_le_one _ r n hpend (ih n)
        | finalize n' k st terminal hcur hp hterm =>
            refine Nat.le_trans (pendingCount_updateStatus_le _ n' k terminal ?_ n) (ih n)
            rcases hterm with rfl | rfl <;> rfl
        | supersede n' k k' hcur hlt hnew =>
            exact Nat.le_trans
              (pendingCount_updateStatus_le _ n' k Status.superseded rfl n) (ih n)
        | startUninstall n' k hcur =>
            exact Nat.le_trans
              (pendingCount_updateStatus_le _ n' k Status.uninstalling rfl n) (ih n)
        | finishUninstall n' k hcur =>
            exact Nat.le_trans
              (pendingCount_updateStatus_le _ n' k Status.uninstalled rfl n) (ih n)
  · intro t t' r hok
    have ht' : t' = t ++ [r] := createIfAbsent_ok hok
    subst ht'
    refine ⟨rfl, ?_⟩
    unfold createIfAbsent
    rw [if_pos]
    rw [List.any_append]
    simp

/-- Witness for C5: from the empty reachable store, a successful
conditional create followed by a second identical create fails the second
with `ConcurrentModification`. -/
theorem pending_exclusive_witness :
    pendingCount ([] : Store) "web" ≤ 1 ∧
    ([⟨"web", 1, "c", Value.table [], "m", Status.pendingUpgrade⟩] : Store) =
      [] ++ [⟨"web", 1, "c", Value.table [], "m", Status.pendingUpgrade⟩] ∧
    createIfAbsent
        [⟨"web", 1, "c", Value.table [], "m", Status.pendingUpgrade⟩]
        ⟨"web", 1, "c", Value.table [], "m", Status.pendingUpgrade⟩ =
      Except.error StorageError.concurrentModification := by
  have h := pending_exclusive Reachable.empty
  have hrace := h.2 []
    [⟨"web", 1, "c", Value.table [], "m", Status.pendingUpgrade⟩]
    ⟨"web", 1, "c", Value.table [], "m", Status.pendingUpgrade⟩ rfl
  exact ⟨h.1 "web", hrace.1, hrace.2⟩

/-! ## Upgrade supersede discipline -/

theorem findRev_append_left {s : Store} {n : String} {k : Nat}
    {r0 : Revision} (h : findRev s n k = some r0) (l : Store) :
    findRev (s ++ l) n k = some r0 := by
  simp [findRev, List.find?_append]
  left
  exact h

theorem maxRevision_cons (a : Revision) (rest : Store) (n : String) :
    maxRevision (a :: rest) n =
      if (a.name == n) = true then max a.revision (maxRevision rest n)
      else maxRevision rest n := by
  simp only [maxRevision, revNumbers, revisionsFor, List.filter_cons]
  split
  · simp
  · rfl

theorem findRev_gt_max :
    ∀ (s : Store) (n : String) (k : Nat), maxRevision s n < k →
      findRev s n k = none := by
  intro s
  induction s with
  | nil => intro n k _; rfl
  | cons a rest ih =>
      intro n k h
      rw [maxRevision_cons] at h
      by_cases hn : (a.name == n) = true
      · rw [if_pos hn] at h
        have hrev : (a.revision == k) = false := by
          simp only [beq_eq_false_iff_ne, ne_eq]
          omega
        have hhead : (a.name == n && a.revision == k) = false := by
          simp [hrev]
        simp only [findRev, List.find?_cons, hhead]
        exact ih n k (by omega)
      · rw [if_neg hn] at h
        have hhead : (a.name == n && a.revision == k) = false := by
          rw [Bool.not_eq_true] at hn
          simp [hn]
        simp only [findRev, List.find?_cons, hhead]
        exact ih n k h

theorem findRev_updateStatus_self :
    ∀ (s : Store) (n : String) (k : Nat) (st : Status) (r : Revision),
      findRev s n k = some r →
      findRev (updateStatus s n k st) n k = some { r with status := st }
  | [], _, _, _, _, h => by cases h
  | a :: rest, n, k, st, r, h => by
      obtain ⟨an, ar, ac, av, am, ast⟩ := a
      simp only [findRev, updateStatus, List.map_cons] at h ⊢
      by_cases hc : (an == n && ar == k) = true
      · simp only [List.find?_cons, hc] at h
        cases h
        rw [if_pos hc]
        simp only [List.find?_cons, hc]
      · rw [Bool.not_eq_true] at hc
        simp only [List.find?_cons, hc] at h
        have ih := findRev_updateStatus_self rest n k st r h
        simp only [findRev, updateStatus] at ih
        rw [if_neg (by simp [hc])]
        simp only [List.find?_cons, hc]
        exact ih

theorem findRev_updateStatus_ne :
    ∀ (s : Store) (n : String) (k' k : Nat) (st : Status), k' ≠ k →
      findRev (updateStatus s n k' st) n k = findRev s n k
  | [], _, _, _, _, _ => rfl
  | a :: rest, n, k', k, st, hne => by
      have ih := findRev_updateStatus_ne rest n k' k st hne
      obtain ⟨an, ar, ac, av, am, ast⟩ := a
      simp only [findRev, updateStatus, List.map_cons] at ih ⊢
      by_cases hc : (an == n && ar == k') = true
      · have hrev : ar = k' := by
          simp only [Bool.and_eq_true, beq_iff_eq] at hc
          exact hc.2
        have hk : (ar == k) = false := by
          simp only [beq_eq_false_iff_ne, ne_eq, hrev]
          exact hne
        have h2 : (an == n && ar == k) = false := by simp [hk]
        rw [if_pos hc]
        simp only [List.find?_cons, h2]
        exact ih
      · rw [Bool.not_eq_true] at hc
        rw [if_neg (by simp [hc])]
        by_cases hp : (an == n && ar == k) = true
        · simp only [List.find?_cons, hp]
        · rw [Bool.not_eq_true] at hp
          simp only [List.find?_cons, hp]
          exact ih

theorem statusOf_updateStatus_self {s : Store} {n : String} {k : Nat}
    {r : Revision} (st : Status) (h : findRev s n k = some r) :
    statusOf (updateStatus s n k st) n k = some st := by
  simp [statusOf, findRev_updateStatus_self s n k st r h]

theorem statusOf_updateStatus_ne {s : Store} {n : String} {k' k : Nat}
    (st : Status) (hne : k' ≠ k) :
    statusOf (updateStatus s n k' st) n k = statusOf s n k := by
  simp [statusOf, findRev_updateStatus_ne s n k' k st hne]

theorem findRev_append_right {s : Store} {n : String} {k : Nat}
    (hnone : findRev s n k = none) (l : Store) :
    findRev (s ++ l) n k = findRev l n k := by
  simp only [findRev, List.find?_append]
  simp only [findRev] at hnone
  rw [hnone]
  rfl

/-- Claim C6: in the upgrade of release `n` from deployed revision N,
revision N is superseded only in a trace state where revision N+1 is
already deployed (never eagerly), and when any upgrade step fails the
final state has revision N+1 `failed` while revision N remains `deployed`
and is not superseded. -/
theorem upgrade_supersede_discipline (s : Store) (n ch : String)
    (vals : Value) (m : String) (run : UpgradeRun) (N : Nat)
    (hN : N = maxRevision s n)
    (hdep : statusOf s n N = some Status.deployed) :
    (¬(run.preUpgradeHooks = StepResult.ok ∧
        run.applyManifests = StepResult.ok ∧
        run.postUpgradeHooks = StepResult.ok) →
      ∀ t, (upgradeTrace s n ch vals m run).getLast? = some t →
        statusOf t n (N + 1) = some Status.failed ∧
        statusOf t n N = some Status.deployed) ∧
    (∀ t ∈ upgradeTrace s n ch vals m run,
      statusOf t n N = some Status.superseded →
        statusOf t n (N + 1) = some Status.deployed) := by
  subst hN
  obtain ⟨r0, hfind0, hst0⟩ := Option.map_eq_some'.mp hdep
  have hfind1old :
      findRev (s ++ [⟨n, maxRevision s n + 1, ch, vals, m,
        Status.pendingUpgrade⟩]) n (maxRevision s n) = some r0 :=
    findRev_append_left hfind0 _
  have hs1old :
      statusOf (s ++ [⟨n, maxRevision s n + 1, ch, vals, m,
        Status.pendingUpgrade⟩]) n (maxRevision s n) = some Status.deployed := by
    simp [statusOf, hfind1old, hst0]
  have hnone : findRev s n (maxRevision s n + 1) = none :=
    findRev_gt_max s n (maxRevision s n + 1) (by omega)
  have hfind1new :
      findRev (s ++ [⟨n, maxRevision s n + 1, ch, vals, m,
        Status.pendingUpgrade⟩]) n (maxRevision s n + 1) =
      some ⟨n, maxRevision s n + 1, ch, vals, m, Status.pendingUpgrade⟩ := by
    rw [findRev_append_right hnone]
    simp [findRev, List.find?_cons]
  by_cases hrun : run.preUpgradeHooks = StepResult.ok ∧
      run.applyManifests = StepResult.ok ∧ run.postUpgradeHooks = StepResult.ok
  · -- successful upgrade: trace is [s, s1, s2, s3]
    constructor
    · intro hfail
      exact absurd hrun hfail
    · intro t ht hsup
      simp only [upgradeTrace, if_pos hrun, List.mem_cons,
        List.mem_singleton, List.not_mem_nil, or_false] at ht
      have hs2old :
          statusOf (updateStatus (s ++ [⟨n, maxRevision s n + 1, ch, vals, m,
            Status.pendingUpgrade⟩]) n (maxRevision s n + 1) Status.deployed)
            n (maxRevision s n) = some Status.deployed := by
        rw [statusOf_updateStatus_ne Status.deployed (by omega)]
        exact hs1old
      have hs2new :
          statusOf (updateStatus (s ++ [⟨n, maxRevision s n + 1, ch, vals, m,
            Status.pendingUpgrade⟩]) n (maxRevision s n + 1) Status.deployed)
            n (maxRevision s n + 1) = some Status.deployed :=
        statusOf_updateStatus_self Status.deployed hfind1new
      rcases ht with rfl | rfl | rfl | rfl
      · rw [hdep] at hsup
        simp at hsup
      · rw [hs1old] at hsup
        simp at hsup
      · rw [hs2old] at hsup
        simp at hsup
      · rw [statusOf_updateStatus_ne Status.superseded (by omega)]
        exact hs2new
  · -- failed upgrade: trace is [s, s1, sf]
    constructor
    · intro _ t ht
      simp only [upgradeTrace, if_neg hrun] at ht
      have hlast : t = updateStatus (s ++ [⟨n, maxRevision s n + 1, ch, vals,
          m, Status.pendingUpgrade⟩]) n (maxRevision s n + 1) Status.failed := by
        simpa [List.getLast?] using ht.symm
      subst hlast
      constructor
      · exact statusOf_updateStatus_self Status.failed hfind1new
      · rw [statusOf_updateStatus_ne Status.failed (by omega)]
        exact hs1old
    · intro t ht hsup
      simp only [upgradeTrace, if_neg hrun, List.mem_cons,
        List.mem_singleton, List.not_mem_nil, or_false] at ht
      rcases ht with rfl | rfl | rfl
      · rw [hdep] at hsup
        simp at hsup
      · rw [hs1old] at hsup
        simp at hsup
      · rw [statusOf_updateStatus_ne Status.failed (by omega), hs1old] at hsup
        simp at hsup

/-- Witness for C6: a concrete upgrade of `web` from deployed revision 1
whose post-upgrade hook fails leaves revision 2 `failed` and revision 1
still `deployed`, and no trace state supersedes revision 1 before
revision 2 is deployed. -/
theorem upgrade_supersede_discipline_witness :
    (∀ t, (upgradeTrace
        [⟨"web", 1, "web-1.0.0", Value.table [], "m1", Status.deployed⟩]
        "web" "web-1.1.0" (Value.table []) "m2"
        ⟨StepResult.ok, StepResult.ok, StepResult.failedStep⟩).getLast? =
          some t →
      statusOf t "web" 2 = some Status.failed ∧
      statusOf t "web" 1 = some Status.deployed) ∧
    (∀ t ∈ upgradeTrace
        [⟨"web", 1, "web-1.0.0", Value.table [], "m1", Status.deployed⟩]
        "web" "web-1.1.0" (Value.table []) "m2"
        ⟨StepResult.ok, StepResult.ok, StepResult.failedStep⟩,
      statusOf t "web" 1 = some Status.superseded →
        statusOf t "web" 2 = some Status.deployed) := by
  have h := upgrade_supersede_discipline
    [⟨"web", 1, "web-1.0.0", Value.table [], "m1", Status.deployed⟩]
    "web" "web-1.1.0" (Value.table []) "m2"
    ⟨StepResult.ok, StepResult.ok, StepResult.failedStep⟩ 1 (by decide)
    (by decide)
  exact ⟨h.1 (by simp), h.2⟩

/-! ## Hook scheduler contract -/

theorem runHooks_all_completed (applyHook : Hook → HookOutcome) :
    ∀ l : List Hook, (∀ h ∈ l, applyHook h = HookOutcome.completed) →
      runHooks applyHook l = Except.ok (l.map (fun h => h.name))
  | [], _ => rfl
  | h :: rest, hall => by
      have hh := hall h (List.mem_cons_self h rest)
      have ih := runHooks_all_completed applyHook rest
        (fun x hx => hall x (List.mem_cons_of_mem h hx))
      simp [runHooks, hh, ih]

theorem runHooks_timeout (applyHook : Hook → HookOutcome) :
    ∀ (l1 : List Hook) (h : Hook) (l2 : List Hook),
      (∀ x ∈ l1, applyHook x = HookOutcome.completed) →
      applyHook h = HookOutcome.timedOut →
      runHooks applyHook (l1 ++ h :: l2) =
        Except.error (HookError.hookTimeout h.name)
  | [], h, l2, _, ht => by simp [runHooks, ht]
  | x :: rest, h, l2, hall, ht => by
      have hx := hall x (List.mem_cons_self x rest)
      have ih := runHooks_timeout applyHook rest h l2
        (fun y hy => hall y (List.mem_cons_of_mem x hy)) ht
      simp [runHooks, hx, ih]

/-- Claim C7: for one lifecycle event the scheduler invokes hooks
sequentially in weight-ascending order with name tie-break (the sorted
order is a permutation of the event's hooks and execution follows it); a
hook that times out fails the event with `HookTimeout` naming that hook and
aborts the remaining hooks; an event with zero hooks is a no-op success. -/
theorem hook_scheduler_contract :
    (∀ applyHook : Hook → HookOutcome,
      executeHookEvent applyHook [] = Except.ok []) ∧
    (∀ hs : List Hook,
      List.Sorted hookLE (sortHooks hs) ∧ List.Perm (sortHooks hs) hs) ∧
    (∀ (applyHook : Hook → HookOutcome) (hs : List Hook),
      (∀ h ∈ hs, applyHook h = HookOutcome.completed) →
      executeHookEvent applyHook hs =
        Except.ok ((sortHooks hs).map (fun h => h.name))) ∧
    (∀ (applyHook : Hook → HookOutcome) (hs l1 l2 : List Hook) (h : Hook),
      sortHooks hs = l1 ++ h :: l2 →
      (∀ x ∈ l1, applyHook x = HookOutcome.completed) →
      applyHook h = HookOutcome.timedOut →
      executeHookEvent applyHook hs =
        Except.error (HookError.hookTimeout h.name)) := by
  refine ⟨fun _ => rfl, ?_, ?_, ?_⟩
  · intro hs
    exact ⟨List.sorted_insertionSort hookLE hs, List.perm_insertionSort hookLE hs⟩
  · intro applyHook hs hall
    unfold executeHookEvent
    apply runHooks_all_completed
    intro h hh
    exact hall h ((List.perm_insertionSort hookLE hs).mem_iff.mp hh)
  · intro applyHook hs l1 l2 h hsort hall ht
    unfold executeHookEvent
    rw [show sortHooks hs = l1 ++ h :: l2 from hsort]
    exact runHooks_timeout applyHook l1 h l2 hall ht

/-- Witness for C7: with hooks `b`(weight 2), `a`(weight 1), `c`(weight 0)
the sorted order is `c, a, b`; `c` completes, `a` times out, so the event
fails with `HookTimeout "a"` before `b` runs. -/
theorem hook_scheduler_contract_witness :
    executeHookEvent
      (fun h => if h.name = "a" then HookOutcome.timedOut
                else HookOutcome.completed)
      [⟨"b", 2, 30⟩, ⟨"a", 1, 30⟩, ⟨"c", 0, 30⟩] =
    Except.error (HookError.hookTimeout "a") := by
  exact hook_scheduler_contract.2.2.2
    (fun h => if h.name = "a" then HookOutcome.timedOut
              else HookOutcome.completed)
    [⟨"b", 2, 30⟩, ⟨"a", 1, 30⟩, ⟨"c", 0, 30⟩]
    [⟨"c", 0, 30⟩] [⟨"b", 2, 30⟩] ⟨"a", 1, 30⟩
    (by decide) (by decide) (by decide)

/-! ## Dependency resolution contract -/

theorem laterVersion_irrefl (a : SemVersion) : laterVersion a a = false := by
  simp [laterVersion]

theorem laterVersion_false_trans {a w x : SemVersion}
    (h1 : laterVersion a w = false) (h2 : laterVersion w x = false) :
    laterVersion a x = false := by
  simp only [laterVersion, Bool.or_eq_false_iff, Bool.and_eq_false_iff,
    decide_eq_false_iff_not, not_lt, beq_eq_false_iff_ne, ne_eq] at h1 h2 ⊢
  omega

theorem laterVersion_asymm {a b : SemVersion}
    (h : laterVersion a b = true) : laterVersion b a = false := by
  simp only [laterVersion, Bool.or_eq_true, Bool.and_eq_true,
    decide_eq_true_eq, beq_iff_eq, Bool.or_eq_false_iff,
    Bool.and_eq_false_iff, decide_eq_false_iff_not, not_lt,
    beq_eq_false_iff_ne, ne_eq] at h ⊢
  omega

theorem pickHighest_eq_none : ∀ {l : List SemVersion},
    pickHighest l = none → l = []
  | [], _ => rfl
  | a :: rest, h => by
      simp only [pickHighest] at h
      cases hr : pickHighest rest with
      | none => rw [hr] at h; cases h
      | some w => rw [hr] at h; cases h

theorem pickHighest_mem : ∀ {l : List SemVersion} {v : SemVersion},
    pickHighest l = some v → v ∈ l
  | [], _, h => by cases h
  | a :: rest, v, h => by
      simp only [pickHighest] at h
      cases hr : pickHighest rest with
      | none =>
          rw [hr] at h
          cases h
          exact List.mem_cons_self a rest
      | some w =>
          rw [hr] at h
          cases h
          split
          · exact List.mem_cons_of_mem a (pickHighest_mem hr)
          · exact List.mem_cons_self a rest

theorem pickHighest_highest : ∀ {l : List SemVersion} {v : SemVersion},
    pickHighest l = some v → ∀ x ∈ l, laterVersion v x = false
  | [], _, h => by cases h
  | a :: rest, v, h => by
      simp only [pickHighest] at h
      cases hr : pickHighest rest with
      | none =>
          rw [hr] at h
          cases h
          intro x hx
          rcases List.mem_cons.mp hx with rfl | hx'
          · exact laterVersion_irrefl x
          · rw [pickHighest_eq_none hr] at hx'
            cases hx'
      | some w =>
          rw [hr] at h
          cases h
          have ih := pickHighest_highest hr
          intro x hx
          rcases List.mem_cons.mp hx with rfl | hx'
          · split
            · rename_i hlt
              exact laterVersion_asymm hlt
            · exact laterVersion_irrefl x
          · split
            · exact ih x hx'
            · rename_i hlt
              rw [Bool.not_eq_true] at hlt
              exact laterVersion_false_trans hlt (ih x hx')

theorem resolveDependency_ok {avail : List SemVersion} {d : Dependency}
    {v : SemVersion} (h : resolveDependency avail d = Except.ok v) :
    d.constraintSatisfied v = true ∧ v ∈ avail ∧
      ∀ w ∈ avail, d.constraintSatisfied w = true →
        laterVersion v w = false := by
  unfold resolveDependency at h
  cases hp : pickHighest (avail.filter d.constraintSatisfied) with
  | none => rw [hp] at h; cases h
  | some u =>
      rw [hp] at h
      cases h
      have hmem := List.mem_filter.mp (pickHighest_mem hp)
      refine ⟨hmem.2, hmem.1, ?_⟩
      intro w hw hcw
      exact pickHighest_highest hp w (List.mem_filter.mpr ⟨hw, hcw⟩)

theorem resolveDependency_error_elim {avail : List SemVersion}
    {d : Dependency} {e : ResolveError}
    (h : resolveDependency avail d = Except.error e) :
    e = ResolveError.unsatisfiableConstraint d.name ∧
      ∀ w ∈ avail, d.constraintSatisfied w = false := by
  unfold resolveDependency at h
  cases hp : pickHighest (avail.filter d.constraintSatisfied) with
  | some u => rw [hp] at h; cases h
  | none =>
      rw [hp] at h
      cases h
      refine ⟨rfl, ?_⟩
      intro w hw
      have hnil := pickHighest_eq_none hp
      by_contra hc
      rw [Bool.not_eq_false] at hc
      have : w ∈ (avail.filter d.constraintSatisfied) :=
        List.mem_filter.mpr ⟨hw, hc⟩
      rw [hnil] at this
      cases this

theorem resolveAll_error (availableOf : String → List SemVersion) :
    ∀ (deps : List Dependency) (e : ResolveError),
      resolveAll availableOf deps = Except.error e →
      ∃ d ∈ deps, e = ResolveError.unsatisfiableConstraint d.name ∧
        ∀ w ∈ availableOf d.name, d.constraintSatisfied w = false
  | [], e, h => by cases h
  | d :: rest, e, h => by
      simp only [resolveAll] at h
      cases hd : resolveDependency (availableOf d.name) d with
      | error e' =>
          rw [hd] at h
          cases h
          obtain ⟨he, hall⟩ := resolveDependency_error_elim hd
          exact ⟨d, List.mem_cons_self d rest, he, hall⟩
      | ok v =>
          rw [hd] at h
          cases hrest : resolveAll availableOf rest with
          | error e' =>
              rw [hrest] at h
              cases h
              obtain ⟨d', hd', he', hall'⟩ :=
                resolveAll_error availableOf rest _ hrest
              exact ⟨d', List.mem_cons_of_mem d hd', he', hall'⟩
          | ok lock => rw [hrest] at h; cases h

/-- Claim C8: the resolver selects, for each declared dependency, the
highest available version satisfying the declared constraint; it fails with
`UnsatisfiableConstraint` exactly when no available version satisfies the
constraint; and a failed resolution names an unsatisfiable dependency and
produces no lock. -/
theorem dependency_resolution_contract :
    (∀ (avail : List SemVersion) (d : Dependency) (v : SemVersion),
      resolveDependency avail d = Except.ok v →
      d.constraintSatisfied v = true ∧ v ∈ avail ∧
        ∀ w ∈ avail, d.constraintSatisfied w = true →
          laterVersion v w = false) ∧
    (∀ (avail : List SemVersion) (d : Dependency),
      resolveDependency avail d =
          Except.error (ResolveError.unsatisfiableConstraint d.name) ↔
        ∀ w ∈ avail, d.constraintSatisfied w = false) ∧
    (∀ (availableOf : String → List SemVersion) (deps : List Dependency)
        (e : ResolveError),
      resolveAll availableOf deps = Except.error e →
      (∃ d ∈ deps, e = ResolveError.unsatisfiableConstraint d.name ∧
        ∀ w ∈ availableOf d.name, d.constraintSatisfied w = false) ∧
      ∀ lock, resolveAll availableOf deps ≠ Except.ok lock) := by
  refine ⟨fun _ _ _ => resolveDependency_ok, ?_, ?_⟩
  · intro avail d
    constructor
    · intro h
      exact (resolveDependency_error_elim h).2
    · intro hall
      unfold resolveDependency
      cases hp : pickHighest (avail.filter d.constraintSatisfied) with
      | none => rfl
      | some u =>
          have hmem := List.mem_filter.mp (pickHighest_mem hp)
          rw [hall u hmem.1] at hmem
          cases hmem.2
  · intro availableOf deps e h
    refine ⟨resolveAll_error availableOf deps e h, ?_⟩
    intro lock hlock
    rw [h] at hlock
    cases hlock

/-- Witness for C8: with versions 1.0.0, 1.2.0, 2.0.0 available, the
constraint `major = 1` resolves to 1.2.0 (the highest satisfying version)
and the constraint `major = 3` is unsatisfiable. -/
theorem dependency_resolution_contract_witness :
    (Dependency.constraintSatisfied ⟨"db", fun v => v.major == 1⟩ ⟨1, 2, 0⟩ = true ∧
      (⟨1, 2, 0⟩ : SemVersion) ∈
        [(⟨1, 0, 0⟩ : SemVersion), ⟨1, 2, 0⟩, ⟨2, 0, 0⟩] ∧
      ∀ w ∈ [(⟨1, 0, 0⟩ : SemVersion), ⟨1, 2, 0⟩, ⟨2, 0, 0⟩],
        Dependency.constraintSatisfied ⟨"db", fun v => v.major == 1⟩ w = true →
          laterVersion ⟨1, 2, 0⟩ w = false) ∧
    resolveDependency [⟨1, 0, 0⟩, ⟨1, 2, 0⟩, ⟨2, 0, 0⟩]
        ⟨"db", fun v => v.major == 3⟩ =
      Except.error (ResolveError.unsatisfiableConstraint "db") := by
  constructor
  · exact dependency_resolution_contract.1
      [⟨1, 0, 0⟩, ⟨1, 2, 0⟩, ⟨2, 0, 0⟩] ⟨"db", fun v => v.major == 1⟩
      ⟨1, 2, 0⟩ rfl
  · exact (dependency_resolution_contract.2.1
      [⟨1, 0, 0⟩, ⟨1, 2, 0⟩, ⟨2, 0, 0⟩] ⟨"db", fun v => v.major == 3⟩).mpr
      (by decide)

/-- Claim C9: `runShow` sets the client's `Version` field to `">0.0.0-0"`
when `Version` is the empty string and `Devel` is true before the call, and
leaves `Version` unchanged in every other case. -/
theorem runShow_version_devel (c : ShowClient) :
    (c.Version = "" ∧ c.Devel = true → (runShow c).Version = ">0.0.0-0") ∧
    (¬(c.Version = "" ∧ c.Devel = true) → (runShow c).Version = c.Version) := by
  constructor
  · rintro ⟨h1, h2⟩
    simp [runShow, h1, h2]
  · intro h
    simp only [runShow, if_neg h]

/-- Witness for C9: a client with empty version and `Devel` set is updated
to `">0.0.0-0"`; a client with a set version keeps it. -/
theorem runShow_version_devel_witness :
    (runShow ⟨ShowOutputFormat.showAll, "", true, ""⟩).Version = ">0.0.0-0" ∧
    (runShow ⟨ShowOutputFormat.showAll, "1.2.3", true, ""⟩).Version = "1.2.3" := by
  constructor
  · exact (runShow_version_devel _).1 ⟨rfl, rfl⟩
  · exact (runShow_version_devel _).2 (by simp)

/-- Claim C10: among the five show subcommands, only the one named
`"values"` receives the `--jsonpath` flag; each of the five receives
`--devel` and the chart-path flags. -/
theorem addShowFlags_jsonpath_only_values (name : String)
    (h : name ∈ showSubcommandNames) :
    (ShowFlag.jsonpath ∈ addShowFlags name ↔ name = "values") ∧
    ShowFlag.devel ∈ addShowFlags name ∧
    ShowFlag.chartPathOptions ∈ addShowFlags name := by
  fin_cases h <;> refine ⟨?_, ?_, ?_⟩ <;> decide

/-- Witness for C10: the `values` subcommand gets `--jsonpath`, `--devel`
and the chart-path flags. -/
theorem addShowFlags_jsonpath_only_values_witness :
    "values" ∈ showSubcommandNames ∧
    ((ShowFlag.jsonpath ∈ addShowFlags "values" ↔ "values" = "values") ∧
      ShowFlag.devel ∈ addShowFlags "values" ∧
      ShowFlag.chartPathOptions ∈ addShowFlags "values") :=
  ⟨by decide, addShowFlags_jsonpath_only_values "values" (by decide)⟩

end Helm
